import Mathlib

/-!
Verification of the array-backed min-heap in `heap.h`.

The C++ class `Heap` stores `Pair { int element; int priority; }` values in a
raw array `A` with fields `hCapacity` and `hSize`.  We model the backing
memory as a total function `Int → Pair` (a raw pointer into int pairs:
out-of-bounds indices read whatever junk is at that address), and the two
`int` fields as `Int`.  Array indices handed to the repair routines are
modeled as `Nat`; for the executions below every C++ index is nonnegative,
where the two coincide.

The recursive repair routines `trickleUp`/`trickleDown` are written with an
explicit structural fuel argument (so that they compute by `decide`); the
official functions apply fuel that provably suffices, and fuel-irrelevance
lemmas recover the exact C++ recurrences.
-/

/-- The `Heap::Pair` member class: `int element; int priority;`. -/
structure Pair where
  element : Int
  priority : Int
deriving DecidableEq, Repr

/-- The `Heap` object state: backing array `A`, `hCapacity`, `hSize`. -/
structure Heap where
  A : Int → Pair
  hCapacity : Int
  hSize : Int

/-- `parent` index arithmetic `(i-1)/2` used by `trickleUp` (and the spec's
heap-order invariant), on nonnegative indices. -/
def par (j : Nat) : Nat := (j - 1) / 2

namespace Heap

/-- `Heap::swap(int i, int j)`: exchange `A[i]` and `A[j]`. -/
def swap (h : Heap) (i j : Nat) : Heap :=
  { h with A := fun k => if k = (i : Int) then h.A j else if k = (j : Int) then h.A i else h.A k }

/-- `Heap::trickleUp(int i)`, with structural fuel (the C++ recursion
strictly decreases `i`, so fuel `i` suffices; see `trickleUpF_eq_trickleUp`). -/
def trickleUpF (h : Heap) : Nat → Nat → Heap
  | _, 0 => h
  | i, g + 1 =>
    if i = 0 then h
    else if (h.A i).priority ≥ (h.A (par i)).priority then h
    else (h.swap i (par i)).trickleUpF (par i) g

/-- `Heap::trickleUp(int i)`: repairs the ordering invariant after adding a
leaf at `A[i]`, by swapping with the parent while strictly smaller. -/
def trickleUp (h : Heap) (i : Nat) : Heap := h.trickleUpF i i

/-- `Heap::trickleDown(int i)`, with structural fuel (the C++ recursion
strictly increases `i` bounded by `hSize`, so fuel `hSize` suffices;
see `trickleDownF_eq_trickleDown`).  The guards transcribe the source:
`left > hSize-1 && right > hSize-1`, then
`right > hSize-1 && A[i].priority > A[left].priority`, then
`left < hSize && right < hSize` with the two-child case analysis. -/
def trickleDownF (h : Heap) : Nat → Nat → Heap
  | _, 0 => h
  | i, g + 1 =>
    if ((2 * i + 1 : Nat) : Int) > h.hSize - 1 ∧ ((2 * i + 2 : Nat) : Int) > h.hSize - 1 then h
    else if ((2 * i + 2 : Nat) : Int) > h.hSize - 1 ∧
        (h.A i).priority > (h.A (2 * i + 1 : Nat)).priority then
      h.swap i (2 * i + 1)
    else if ((2 * i + 1 : Nat) : Int) < h.hSize ∧ ((2 * i + 2 : Nat) : Int) < h.hSize then
      if (h.A i).priority ≤ (h.A (2 * i + 1 : Nat)).priority ∧
          (h.A i).priority ≤ (h.A (2 * i + 2 : Nat)).priority then h
      else if (h.A (2 * i + 1 : Nat)).priority > (h.A (2 * i + 2 : Nat)).priority then
        (h.swap i (2 * i + 2)).trickleDownF (2 * i + 2) g
      else
        (h.swap i (2 * i + 1)).trickleDownF (2 * i + 1) g
    else h

/-- `Heap::trickleDown(int i)`: repairs the ordering invariant for the
subtree rooted at `i` when its children's subtrees are already heaps. -/
def trickleDown (h : Heap) (i : Nat) : Heap := h.trickleDownF i h.hSize.toNat

/-- The loop body of `Heap::heapify`: `for (int i = (hSize/2)-1; i >= 0; i--)
trickleDown(i);`, counted down from the iteration count. -/
def heapifyAux (h : Heap) : Nat → Heap
  | 0 => h
  | k + 1 => ((h.trickleDown k).heapifyAux k)

/-- `Heap::heapify()`: establishes the ordering invariant for the whole
array (`hSize/2` loop iterations, from `(hSize/2)-1` down to `0`). -/
def heapify (h : Heap) : Heap := h.heapifyAux (h.hSize.toNat / 2)

/-- `Heap::insert(int element, int priority)`: write the pair at `A[hSize]`,
`trickleUp(hSize)`, then `hSize++`. -/
def insert (h : Heap) (element priority : Int) : Heap :=
  let h1 : Heap := { h with A := Function.update h.A h.hSize ⟨element, priority⟩ }
  let h2 := h1.trickleUp h.hSize.toNat
  { h2 with hSize := h2.hSize + 1 }

/-- `Heap::extractMin()`: save `A[0].element`, move `A[hSize-1]` to the
root, `hSize--`, `trickleDown(0)`, return the saved element. -/
def extractMin (h : Heap) : Int × Heap :=
  let min := (h.A 0).element
  let h1 : Heap := { h with A := Function.update h.A 0 (h.A (h.hSize - 1)), hSize := h.hSize - 1 }
  (min, h1.trickleDown 0)

/-- `Heap::peekMin()`: `return A[0].element;` (no emptiness check). -/
def peekMin (h : Heap) : Int := (h.A 0).element

/-- `Heap::peekMinPriority()`: `return A[0].priority;`. -/
def peekMinPriority (h : Heap) : Int := (h.A 0).priority

/-- `Heap::empty()`: `hSize == 0`. -/
def isEmpty (h : Heap) : Bool := h.hSize == 0

/-- `Heap::Heap()`: default capacity 10, `hSize = 0`; the fresh allocation
`new Pair[10]` holds indeterminate values, modeled by `junk`. -/
def mkDefault (junk : Int → Pair) : Heap := { A := junk, hCapacity := 10, hSize := 0 }

/-- `Heap::Heap(int c)`: capacity `c`, `hSize = 0` (no validation of `c`). -/
def mkCap (junk : Int → Pair) (c : Int) : Heap := { A := junk, hCapacity := c, hSize := 0 }

/-- `Heap::Heap(const int* Priorities, const int* Elements, int s, int c)`:
allocates `s + c` slots and inserts each pair in order.  The constructor
body never assigns `hSize`, so the inserts run with an indeterminate
(uninitialized-memory) value of that field, modeled by `junkSize`. -/
def mkFromArrays (junk : Int → Pair) (junkSize : Int)
    (Priorities Elements : Int → Int) (s c : Int) : Heap :=
  let h0 : Heap := { A := junk, hCapacity := s + c, hSize := junkSize }
  (List.range s.toNat).foldl (fun h (i : Nat) => h.insert (Elements i) (Priorities i)) h0

/-- `Heap::Heap(const Heap&, const Heap&, int c)`: `hSize` is the sum of the
sizes, `hCapacity = hSize + c`, the two contents are copied back to back
into a fresh allocation (`junk` elsewhere), then `heapify()` runs. -/
def merge (junk : Int → Pair) (h1 h2 : Heap) (c : Int) : Heap :=
  let sz := h1.hSize + h2.hSize
  Heap.heapify
    { A := fun k =>
        if 0 ≤ k ∧ k < h1.hSize then h1.A k
        else if h1.hSize ≤ k ∧ k < sz then h2.A (k - h1.hSize)
        else junk k,
      hCapacity := sz + c,
      hSize := sz }

/-- The multiset of pairs stored in slots `[0, n)` of the backing array. -/
def contentsN (h : Heap) (n : Nat) : Multiset Pair :=
  ((List.range n).map (fun k : Nat => h.A k) : List Pair)

/-- The multiset of pairs logically stored in the heap (slots `[0, hSize)`). -/
def contents (h : Heap) : Multiset Pair := h.contentsN h.hSize.toNat

/-- Insert each pair of a list in order via `Heap::insert` (the client-side
loop used by the round-trip property). -/
def insertList (h : Heap) (l : List Pair) : Heap :=
  l.foldl (fun h p => h.insert p.element p.priority) h

/-- The pairs removed by `n` successive `Heap::extractMin()` calls: each call
removes the root pair `A[0]` (whose `element` field is the return value). -/
def extractSeq (h : Heap) : Nat → List Pair
  | 0 => []
  | n + 1 => h.A 0 :: (h.extractMin).2.extractSeq n

/-- The return values of `n` successive `Heap::extractMin()` calls. -/
def extractElems (h : Heap) : Nat → List Int
  | 0 => []
  | n + 1 => (h.extractMin).1 :: (h.extractMin).2.extractElems n

/-- The heap-order invariant: every non-root slot below `hSize` has priority
at least its parent's. -/
def heapOrdered (h : Heap) : Prop :=
  ∀ j, j < h.hSize.toNat → 0 < j → (h.A (par j : Nat)).priority ≤ (h.A (j : Nat)).priority

instance (h : Heap) : Decidable h.heapOrdered := by
  unfold Heap.heapOrdered; infer_instance

/-- Modelled from the spec's sift-down tie-break policy (kept separate from
`trickleDown`, which is translated from the source, so the two can be
compared): at node `i`, if neither child index is below `size`, stop; if
only the left child exists and its priority is strictly below node `i`'s,
swap with left and stop (otherwise stop); if both exist and `i`'s priority
is at most both children's, stop; otherwise swap with the child of strictly
smaller priority (left wins ties) and recurse into it. -/
def trickleDownSpecF (h : Heap) : Nat → Nat → Heap
  | _, 0 => h
  | i, g + 1 =>
    if ¬(((2 * i + 1 : Nat) : Int) < h.hSize) ∧ ¬(((2 * i + 2 : Nat) : Int) < h.hSize) then h
    else if ((2 * i + 1 : Nat) : Int) < h.hSize ∧ ¬(((2 * i + 2 : Nat) : Int) < h.hSize) then
      if (h.A (2 * i + 1 : Nat)).priority < (h.A i).priority then h.swap i (2 * i + 1) else h
    else if ((2 * i + 1 : Nat) : Int) < h.hSize ∧ ((2 * i + 2 : Nat) : Int) < h.hSize then
      if (h.A i).priority ≤ (h.A (2 * i + 1 : Nat)).priority ∧
          (h.A i).priority ≤ (h.A (2 * i + 2 : Nat)).priority then h
      else if (h.A (2 * i + 2 : Nat)).priority < (h.A (2 * i + 1 : Nat)).priority then
        (h.swap i (2 * i + 2)).trickleDownSpecF (2 * i + 2) g
      else
        (h.swap i (2 * i + 1)).trickleDownSpecF (2 * i + 1) g
    else h

/-- The spec's sift-down, with the same recursion-depth fuel as `trickleDown`. -/
def trickleDownSpec (h : Heap) (i : Nat) : Heap := h.trickleDownSpecF i h.hSize.toNat

end Heap

/-- The heap states produced by the constructors and sequences of valid
operations (inserts within capacity, extractions on non-empty heaps).  The
raw-array constructor participates with `junkSize = 0`, i.e. assuming its
missing `hSize` initialization (see `fromArrays_uninitialized_size` for
what happens otherwise). -/
inductive Reachable : Heap → Prop
  | mkDef : ∀ junk, Reachable (Heap.mkDefault junk)
  | mkC : ∀ junk c, Reachable (Heap.mkCap junk c)
  | mkArr : ∀ junk P E s c, Reachable (Heap.mkFromArrays junk 0 P E s c)
  | mkMerge : ∀ junk c h1 h2, Reachable h1 → Reachable h2 → Reachable (Heap.merge junk h1 h2 c)
  | insStep : ∀ h e p, Reachable h → h.hSize < h.hCapacity → Reachable (h.insert e p)
  | extStep : ∀ h, Reachable h → 0 < h.hSize → Reachable (h.extractMin).2

/-- Zero-filled fresh memory, used as one concrete instance of the
indeterminate contents of a `new Pair[...]` allocation. -/
def junkZero : Int → Pair := fun _ => ⟨0, 0⟩

/-- Fresh memory whose first two slots hold priorities `5` and `1` (a
possible indeterminate state of a new allocation). -/
def junkBad : Int → Pair := fun k => if k = 0 then ⟨0, 5⟩ else if k = 1 then ⟨0, 1⟩ else ⟨0, 0⟩

/-- The spec's example priority array `[5, 3, 8, 1]`. -/
def P5 : Int → Int := fun k =>
  if k = 0 then 5 else if k = 1 then 3 else if k = 2 then 8 else if k = 3 then 1 else 0

/-- The spec's example element array (`a, b, c, d` as `10, 20, 30, 40`). -/
def E5 : Int → Int := fun k =>
  if k = 0 then 10 else if k = 1 then 20 else if k = 2 then 30 else if k = 3 then 40 else 0

/-- A heap at full capacity (size 1 = capacity 1). -/
def hFull : Heap := (Heap.mkCap junkZero 1).insert 7 3

/-- A small two-element heap built by valid operations. -/
def hTwo : Heap := ((Heap.mkCap junkZero 3).insert 5 2).insert 6 1

namespace Heap

/-! ### Basic facts about `swap` -/

theorem swap_hSize (h : Heap) (i j : Nat) : (h.swap i j).hSize = h.hSize := rfl

theorem swap_hCapacity (h : Heap) (i j : Nat) : (h.swap i j).hCapacity = h.hCapacity := rfl

theorem swap_A_fst (h : Heap) (i j : Nat) : (h.swap i j).A i = h.A j := by
  simp [swap]

theorem swap_A_snd (h : Heap) (i j : Nat) : (h.swap i j).A j = h.A i := by
  by_cases hij : j = i
  · subst hij; simp [swap]
  · simp [swap, Nat.cast_inj, hij]

theorem swap_A_other (h : Heap) (i j : Nat) (k : Int) (h1 : k ≠ (i : Int)) (h2 : k ≠ (j : Int)) :
    (h.swap i j).A k = h.A k := by
  simp [swap, h1, h2]

theorem swap_A_ne (h : Heap) (i j k : Nat) (h1 : k ≠ i) (h2 : k ≠ j) :
    (h.swap i j).A k = h.A k :=
  swap_A_other h i j k (by exact_mod_cast h1) (by exact_mod_cast h2)

/-! ### Fuel irrelevance and the C++ recurrences -/

theorem trickleUpF_congr : ∀ (g : Nat) (h : Heap) (i g' : Nat), i ≤ g → i ≤ g' →
    h.trickleUpF i g = h.trickleUpF i g' := by
  intro g
  induction g with
  | zero =>
    intro h i g' hg _
    obtain rfl : i = 0 := by omega
    cases g' <;> simp [trickleUpF]
  | succ g ih =>
    intro h i g' hg hg'
    cases g' with
    | zero =>
      obtain rfl : i = 0 := by omega
      simp [trickleUpF]
    | succ g'' =>
      simp only [trickleUpF]
      split_ifs with h0 hp
      · rfl
      · rfl
      · exact ih _ (par i) g'' (by simp only [par]; omega) (by simp only [par]; omega)

theorem trickleUp_zero (h : Heap) : h.trickleUp 0 = h := rfl

theorem trickleUp_succ (h : Heap) (i : Nat) (hi : 0 < i) :
    h.trickleUp i =
      if (h.A i).priority ≥ (h.A (par i)).priority then h
      else (h.swap i (par i)).trickleUp (par i) := by
  unfold trickleUp
  obtain ⟨j, rfl⟩ : ∃ j, i = j + 1 := ⟨i - 1, by omega⟩
  simp only [trickleUpF]
  rw [if_neg (show ¬(j + 1 = 0) from by omega)]
  split_ifs with hp
  · rfl
  · exact trickleUpF_congr j _ (par (j + 1)) (par (j + 1)) (by simp only [par]; omega) le_rfl

theorem trickleUpF_hSize : ∀ (g : Nat) (h : Heap) (i : Nat),
    (h.trickleUpF i g).hSize = h.hSize := by
  intro g
  induction g with
  | zero => intro h i; rfl
  | succ g ih =>
    intro h i
    simp only [trickleUpF]
    split_ifs <;> first | rfl | rw [ih, swap_hSize]

theorem trickleUpF_hCapacity : ∀ (g : Nat) (h : Heap) (i : Nat),
    (h.trickleUpF i g).hCapacity = h.hCapacity := by
  intro g
  induction g with
  | zero => intro h i; rfl
  | succ g ih =>
    intro h i
    simp only [trickleUpF]
    split_ifs <;> first | rfl | rw [ih, swap_hCapacity]

theorem trickleUp_hSize (h : Heap) (i : Nat) : (h.trickleUp i).hSize = h.hSize :=
  trickleUpF_hSize i h i

theorem trickleUp_hCapacity (h : Heap) (i : Nat) : (h.trickleUp i).hCapacity = h.hCapacity :=
  trickleUpF_hCapacity i h i

theorem trickleDownF_stop (h : Heap) (i : Nat) (hi : h.hSize.toNat ≤ i) :
    ∀ g, h.trickleDownF i g = h := by
  intro g
  cases g with
  | zero => rfl
  | succ g =>
    simp only [trickleDownF]
    rw [if_pos ⟨by omega, by omega⟩]

theorem trickleDownF_congr : ∀ (g : Nat) (h : Heap) (i g' : Nat),
    h.hSize.toNat - i ≤ g → h.hSize.toNat - i ≤ g' →
    h.trickleDownF i g = h.trickleDownF i g' := by
  intro g
  induction g with
  | zero =>
    intro h i g' hg _
    rw [trickleDownF_stop h i (by omega), trickleDownF_stop h i (by omega)]
  | succ g ih =>
    intro h i g' hg hg'
    by_cases hstop : h.hSize.toNat ≤ i
    · rw [trickleDownF_stop h i hstop, trickleDownF_stop h i hstop]
    · obtain ⟨g'', rfl⟩ : ∃ g'', g' = g'' + 1 := ⟨g' - 1, by omega⟩
      simp only [trickleDownF]
      split_ifs <;> first | rfl | (apply ih <;> (rw [swap_hSize]; omega))

theorem trickleDown_eq (h : Heap) (i : Nat) :
    h.trickleDown i =
      if ((2 * i + 1 : Nat) : Int) > h.hSize - 1 ∧ ((2 * i + 2 : Nat) : Int) > h.hSize - 1 then h
      else if ((2 * i + 2 : Nat) : Int) > h.hSize - 1 ∧
          (h.A i).priority > (h.A (2 * i + 1 : Nat)).priority then
        h.swap i (2 * i + 1)
      else if ((2 * i + 1 : Nat) : Int) < h.hSize ∧ ((2 * i + 2 : Nat) : Int) < h.hSize then
        if (h.A i).priority ≤ (h.A (2 * i + 1 : Nat)).priority ∧
            (h.A i).priority ≤ (h.A (2 * i + 2 : Nat)).priority then h
        else if (h.A (2 * i + 1 : Nat)).priority > (h.A (2 * i + 2 : Nat)).priority then
          (h.swap i (2 * i + 2)).trickleDown (2 * i + 2)
        else
          (h.swap i (2 * i + 1)).trickleDown (2 * i + 1)
      else h := by
  unfold trickleDown
  cases hn : h.hSize.toNat with
  | zero =>
    rw [if_pos ⟨show ((2 * i + 1 : Nat) : Int) > h.hSize - 1 from by omega,
      show ((2 * i + 2 : Nat) : Int) > h.hSize - 1 from by omega⟩]
    rfl
  | succ m =>
    simp only [trickleDownF]
    split_ifs <;> first | rfl | (apply trickleDownF_congr <;> (rw [swap_hSize]; omega))

theorem trickleDown_stop (h : Heap) (i : Nat) (hi : h.hSize.toNat ≤ i) :
    h.trickleDown i = h :=
  trickleDownF_stop h i hi _

theorem trickleDownF_hSize : ∀ (g : Nat) (h : Heap) (i : Nat),
    (h.trickleDownF i g).hSize = h.hSize := by
  intro g
  induction g with
  | zero => intro h i; rfl
  | succ g ih =>
    intro h i
    simp only [trickleDownF]
    split_ifs <;> first | rfl | rw [ih, swap_hSize]

theorem trickleDownF_hCapacity : ∀ (g : Nat) (h : Heap) (i : Nat),
    (h.trickleDownF i g).hCapacity = h.hCapacity := by
  intro g
  induction g with
  | zero => intro h i; rfl
  | succ g ih =>
    intro h i
    simp only [trickleDownF]
    split_ifs <;> first | rfl | rw [ih, swap_hCapacity]

theorem trickleDown_hSize (h : Heap) (i : Nat) : (h.trickleDown i).hSize = h.hSize :=
  trickleDownF_hSize _ h i

theorem trickleDown_hCapacity (h : Heap) (i : Nat) :
    (h.trickleDown i).hCapacity = h.hCapacity :=
  trickleDownF_hCapacity _ h i

theorem heapifyAux_hSize : ∀ (k : Nat) (h : Heap), (h.heapifyAux k).hSize = h.hSize := by
  intro k
  induction k with
  | zero => intro h; rfl
  | succ k ih => intro h; simp only [heapifyAux]; rw [ih, trickleDown_hSize]

theorem heapifyAux_hCapacity : ∀ (k : Nat) (h : Heap), (h.heapifyAux k).hCapacity = h.hCapacity := by
  intro k
  induction k with
  | zero => intro h; rfl
  | succ k ih => intro h; simp only [heapifyAux]; rw [ih, trickleDown_hCapacity]

theorem heapify_hSize (h : Heap) : h.heapify.hSize = h.hSize := heapifyAux_hSize _ h

theorem heapify_hCapacity (h : Heap) : h.heapify.hCapacity = h.hCapacity :=
  heapifyAux_hCapacity _ h

/-! ### Index arithmetic for the implicit tree -/

theorem par_lt (j : Nat) (hj : 0 < j) : par j < j := by
  simp only [par]; omega

theorem par_le (j : Nat) : par j ≤ j := by
  simp only [par]; omega

theorem child_left (i : Nat) : par (2 * i + 1) = i := by
  simp only [par]; omega

theorem child_right (i : Nat) : par (2 * i + 2) = i := by
  simp only [par]; omega

theorem children_of {i : Nat} (j : Nat) (hj : 0 < j) (hp : par j = i) :
    j = 2 * i + 1 ∨ j = 2 * i + 2 := by
  simp only [par] at hp; omega

theorem children_of' {i : Nat} (j : Nat) (hi : 0 < i) (hp : par j = i) :
    j = 2 * i + 1 ∨ j = 2 * i + 2 := by
  simp only [par] at hp; omega

theorem two_par_lt (j : Nat) (hj : 0 < j) : 2 * par j + 1 ≤ j := by
  simp only [par]; omega

/-! ### Multiset bookkeeping for slot updates and swaps -/

theorem mset_map_update {α : Type} [DecidableEq α] (f : Nat → α) (i : Nat) (b : α) :
    ∀ n, i < n →
    f i ::ₘ (((List.range n).map (Function.update f i b) : List α) : Multiset α)
      = b ::ₘ (((List.range n).map f : List α) : Multiset α) := by
  intro n
  induction n with
  | zero => intro hlt; exact absurd hlt (Nat.not_lt_zero i)
  | succ m ih =>
    intro hi
    rw [List.range_succ]
    by_cases him : i = m
    · subst him
      have hmap : (List.range i).map (Function.update f i b) = (List.range i).map f := by
        apply List.map_congr_left
        intro a ha
        have ha' : a ≠ i := by have := List.mem_range.mp ha; omega
        simp [Function.update_apply, ha']
      simp only [List.map_append, List.map_cons, List.map_nil, hmap, Function.update_same]
      rw [← Multiset.coe_add, ← Multiset.coe_add]
      rw [← Multiset.singleton_add, ← Multiset.singleton_add]
      rw [Multiset.coe_singleton]
      have habel : ∀ (s : Multiset α) (x y : α), {x} + (s + {y}) = {y} + (s + {x}) := by
        intro s x y
        abel
      exact habel _ _ _
    · have hi' : i < m := by omega
      have hih := ih hi'
      have hupm : Function.update f i b m = f m := by
        rw [Function.update_apply, if_neg (by omega)]
      simp only [List.map_append, List.map_cons, List.map_nil]
      rw [← Multiset.coe_add, ← Multiset.coe_add, hupm]
      rw [Multiset.coe_singleton]
      rw [← Multiset.singleton_add, ← Multiset.singleton_add, ← add_assoc, ← add_assoc]
      have hfront : {f i} + (((List.range m).map (Function.update f i b) : List α) : Multiset α)
          = {b} + (((List.range m).map f : List α) : Multiset α) := by
        rw [Multiset.singleton_add, Multiset.singleton_add]
        exact hih
      rw [hfront]

theorem mset_map_swapFun {α : Type} [DecidableEq α] (f : Nat → α) (i j : Nat) :
    ∀ n, i < n → j < n →
    (((List.range n).map (fun k => if k = i then f j else if k = j then f i else f k) : List α) :
        Multiset α)
      = (((List.range n).map f : List α) : Multiset α) := by
  intro n hi hj
  by_cases hij : i = j
  · subst hij
    have hfun : (fun k => if k = i then f i else if k = i then f i else f k) = f := by
      funext k
      by_cases hk : k = i
      · subst hk; simp
      · simp [hk]
    rw [hfun]
  · have heq : (fun k => if k = i then f j else if k = j then f i else f k)
        = Function.update (Function.update f i (f j)) j (f i) := by
      funext k
      rw [Function.update_apply, Function.update_apply]
      by_cases hk : k = i
      · subst hk
        rw [if_pos rfl, if_neg hij, if_pos rfl]
      · by_cases hk' : k = j
        · subst hk'; rw [if_neg hk, if_pos rfl, if_pos rfl]
        · rw [if_neg hk, if_neg hk', if_neg hk', if_neg hk]
    rw [heq]
    have hj' : Function.update f i (f j) j = f j := by
      rw [Function.update_apply, if_neg (fun hh => hij hh.symm)]
    have h1 := mset_map_update (Function.update f i (f j)) j (f i) n hj
    rw [hj'] at h1
    have h2 := mset_map_update f i (f j) n hi
    exact (Multiset.cons_inj_right _).mp (h1.trans h2)

/-! ### The operations permute the stored contents -/

theorem contentsN_swap (h : Heap) (i j n : Nat) (hi : i < n) (hj : j < n) :
    (h.swap i j).contentsN n = h.contentsN n := by
  unfold contentsN
  have hfun : (fun k : Nat => (h.swap i j).A k)
      = fun k : Nat => if k = i then h.A (j : Nat) else if k = j then h.A (i : Nat)
          else h.A (k : Nat) := by
    funext k
    simp only [swap]
    by_cases hk : k = i
    · subst hk; rw [if_pos rfl, if_pos rfl]
    · rw [if_neg (by exact_mod_cast hk), if_neg hk]
      by_cases hk' : k = j
      · subst hk'; rw [if_pos rfl, if_pos rfl]
      · rw [if_neg (by exact_mod_cast hk'), if_neg hk']
  rw [hfun]
  exact mset_map_swapFun (fun k : Nat => h.A (k : Nat)) i j n hi hj

theorem contentsN_succ (h : Heap) (n : Nat) :
    h.contentsN (n + 1) = h.contentsN n + {h.A (n : Nat)} := by
  unfold contentsN
  rw [List.range_succ]
  simp only [List.map_append, List.map_cons, List.map_nil]
  rw [← Multiset.coe_add, Multiset.coe_singleton]

theorem trickleUpF_contentsN : ∀ (g : Nat) (h : Heap) (i n : Nat), i < n →
    (h.trickleUpF i g).contentsN n = h.contentsN n := by
  intro g
  induction g with
  | zero => intro h i n _; rfl
  | succ g ih =>
    intro h i n hin
    simp only [trickleUpF]
    split_ifs with h0 hp
    · rfl
    · rfl
    · rw [ih _ (par i) n (by have := par_le i; omega),
        contentsN_swap h i (par i) n hin (by have := par_le i; omega)]

theorem trickleUp_contentsN (h : Heap) (i n : Nat) (hin : i < n) :
    (h.trickleUp i).contentsN n = h.contentsN n :=
  trickleUpF_contentsN i h i n hin

theorem trickleDownF_contentsN : ∀ (g : Nat) (h : Heap) (i : Nat),
    (h.trickleDownF i g).contentsN h.hSize.toNat = h.contentsN h.hSize.toNat := by
  intro g
  induction g with
  | zero => intro h i; rfl
  | succ g ih =>
    intro h i
    simp only [trickleDownF]
    split_ifs with h1 h2 h3 h4 h5
    · rfl
    · exact contentsN_swap h i (2 * i + 1) h.hSize.toNat (by omega) (by omega)
    · rfl
    · have hrec := ih (h.swap i (2 * i + 2)) (2 * i + 2)
      rw [swap_hSize] at hrec
      rw [hrec, contentsN_swap h i (2 * i + 2) h.hSize.toNat (by omega) (by omega)]
    · have hrec := ih (h.swap i (2 * i + 1)) (2 * i + 1)
      rw [swap_hSize] at hrec
      rw [hrec, contentsN_swap h i (2 * i + 1) h.hSize.toNat (by omega) (by omega)]
    · rfl

theorem trickleDown_contentsN (h : Heap) (i : Nat) :
    (h.trickleDown i).contentsN h.hSize.toNat = h.contentsN h.hSize.toNat :=
  trickleDownF_contentsN _ h i

theorem heapifyAux_contentsN : ∀ (k : Nat) (h : Heap),
    (h.heapifyAux k).contentsN h.hSize.toNat = h.contentsN h.hSize.toNat := by
  intro k
  induction k with
  | zero => intro h; rfl
  | succ k ih =>
    intro h
    simp only [heapifyAux]
    have hrec := ih (h.trickleDown k)
    rw [trickleDown_hSize] at hrec
    rw [hrec, trickleDown_contentsN]

theorem heapify_contentsN (h : Heap) :
    h.heapify.contentsN h.hSize.toNat = h.contentsN h.hSize.toNat :=
  heapifyAux_contentsN _ h

/-! ### Effect of `insert` and `extractMin` on size and contents -/

theorem insert_hSize (h : Heap) (e p : Int) : (h.insert e p).hSize = h.hSize + 1 := by
  simp only [insert]
  rw [trickleUp_hSize]

theorem insert_hCapacity (h : Heap) (e p : Int) : (h.insert e p).hCapacity = h.hCapacity := by
  simp only [insert]
  rw [trickleUp_hCapacity]

theorem insert_contents (h : Heap) (e p : Int) (h0 : 0 ≤ h.hSize) :
    (h.insert e p).contents = (⟨e, p⟩ : Pair) ::ₘ h.contents := by
  have hcast : h.hSize = ((h.hSize.toNat : Nat) : Int) := by omega
  unfold contents
  rw [insert_hSize, show (h.hSize + 1).toNat = h.hSize.toNat + 1 from by omega]
  rw [show (h.insert e p).contentsN (h.hSize.toNat + 1)
      = (({h with A := Function.update h.A h.hSize ⟨e, p⟩} : Heap).trickleUp
          h.hSize.toNat).contentsN (h.hSize.toNat + 1) from rfl]
  rw [trickleUp_contentsN _ _ _ (Nat.lt_succ_self _)]
  rw [contentsN_succ]
  have hAn : ({h with A := Function.update h.A h.hSize ⟨e, p⟩} : Heap).A
      ((h.hSize.toNat : Nat) : Int) = ⟨e, p⟩ := by
    show Function.update h.A h.hSize ⟨e, p⟩ _ = _
    rw [← hcast, Function.update_same]
  have hNn : ({h with A := Function.update h.A h.hSize ⟨e, p⟩} : Heap).contentsN h.hSize.toNat
      = h.contentsN h.hSize.toNat := by
    unfold contentsN
    congr 1
    apply List.map_congr_left
    intro a ha
    have halt := List.mem_range.mp ha
    show Function.update h.A h.hSize ⟨e, p⟩ ((a : Nat) : Int) = h.A ((a : Nat) : Int)
    rw [Function.update_apply, if_neg (by omega)]
  rw [hAn, hNn, ← Multiset.singleton_add, add_comm, Multiset.singleton_add]

theorem extract_fst (h : Heap) : (h.extractMin).1 = (h.A 0).element := rfl

theorem extract_hSize (h : Heap) : (h.extractMin).2.hSize = h.hSize - 1 := by
  simp only [extractMin]
  rw [trickleDown_hSize]

theorem extract_hCapacity (h : Heap) : (h.extractMin).2.hCapacity = h.hCapacity := by
  simp only [extractMin]
  rw [trickleDown_hCapacity]

theorem mset_add_singleton {α : Type} (s : Multiset α) (a : α) : s + {a} = a ::ₘ s := by
  rw [add_comm, Multiset.singleton_add]

theorem extract_contents (h : Heap) (hpos : 0 < h.hSize) :
    h.contents = h.A 0 ::ₘ (h.extractMin).2.contents := by
  obtain ⟨m, hm⟩ : ∃ m, h.hSize.toNat = m + 1 := ⟨h.hSize.toNat - 1, by omega⟩
  rw [show (h.extractMin).2 = ({h with
      A := Function.update h.A 0 (h.A (h.hSize - 1)),
      hSize := h.hSize - 1} : Heap).trickleDown 0 from rfl]
  set h1 : Heap := {h with
      A := Function.update h.A 0 (h.A (h.hSize - 1)),
      hSize := h.hSize - 1} with hh1
  have h1szt : h1.hSize.toNat = m := by
    show (h.hSize - 1).toNat = m
    omega
  have hsub : (h1.trickleDown 0).contents = h1.contentsN m := by
    unfold contents
    rw [trickleDown_hSize, trickleDown_contentsN, h1szt]
  rw [hsub]
  unfold contents
  rw [hm]
  rcases Nat.eq_zero_or_pos m with rfl | hm0
  · unfold contentsN
    simp [List.range_succ]
  · have hfun : (fun k : Nat => h1.A (k : Nat))
        = Function.update (fun k : Nat => h.A (k : Nat)) 0 (h.A ((m : Nat) : Int)) := by
      funext k
      rw [Function.update_apply]
      by_cases hk : k = 0
      · subst hk
        rw [if_pos rfl]
        show Function.update h.A 0 (h.A (h.hSize - 1)) ((0 : Nat) : Int) = h.A ((m : Nat) : Int)
        rw [show ((0 : Nat) : Int) = 0 from rfl, Function.update_same,
          show h.hSize - 1 = ((m : Nat) : Int) from by omega]
      · rw [if_neg hk]
        show Function.update h.A 0 (h.A (h.hSize - 1)) ((k : Nat) : Int) = h.A ((k : Nat) : Int)
        rw [Function.update_apply, if_neg (by omega)]
    unfold contentsN
    rw [hfun, List.range_succ]
    simp only [List.map_append, List.map_cons, List.map_nil]
    rw [← Multiset.coe_add, Multiset.coe_singleton, mset_add_singleton]
    rw [show (h.A 0 : Pair) = (fun k : Nat => h.A ((k : Nat) : Int)) 0 from rfl]
    rw [mset_map_update (fun k : Nat => h.A ((k : Nat) : Int)) 0 (h.A ((m : Nat) : Int)) m hm0]

/-! ### `trickleDown` repairs the invariant below a displaced root -/

theorem trickleDown_ordered :
    ∀ (d : Nat) (h : Heap) (i k : Nat), h.hSize.toNat - i ≤ d → k ≤ i →
    (∀ j, j < h.hSize.toNat → 0 < j → k ≤ par j → par j ≠ i →
      (h.A (par j : Nat)).priority ≤ (h.A (j : Nat)).priority) →
    (0 < i → k ≤ par i → ∀ c, c < h.hSize.toNat → par c = i →
      (h.A (par i : Nat)).priority ≤ (h.A (c : Nat)).priority) →
    ∀ j, j < h.hSize.toNat → 0 < j → k ≤ par j →
      ((h.trickleDown i).A (par j : Nat)).priority ≤ ((h.trickleDown i).A (j : Nat)).priority := by
  intro d
  induction d with
  | zero =>
    intro h i k hd hk ha hb j hj hj0 hkj
    rw [trickleDown_stop h i (by omega)]
    by_cases hpj : par j = i
    · exfalso
      rcases children_of j hj0 hpj with rfl | rfl <;> omega
    · exact ha j hj hj0 hkj hpj
  | succ d ih =>
    intro h i k hd hk ha hb j hj hj0 hkj
    by_cases hstop : h.hSize.toNat ≤ i
    · rw [trickleDown_stop h i hstop]
      by_cases hpj : par j = i
      · exfalso
        rcases children_of j hj0 hpj with rfl | rfl <;> omega
      · exact ha j hj hj0 hkj hpj
    · rw [trickleDown_eq h i]
      by_cases c1 : ((2 * i + 1 : Nat) : Int) > h.hSize - 1 ∧
          ((2 * i + 2 : Nat) : Int) > h.hSize - 1
      · rw [if_pos c1]
        by_cases hpj : par j = i
        · exfalso
          rcases children_of j hj0 hpj with rfl | rfl <;> omega
        · exact ha j hj hj0 hkj hpj
      · rw [if_neg c1]
        by_cases c2 : ((2 * i + 2 : Nat) : Int) > h.hSize - 1 ∧
            (h.A (i : Nat)).priority > (h.A (2 * i + 1 : Nat)).priority
        · rw [if_pos c2]
          have hln : 2 * i + 1 < h.hSize.toNat := by omega
          have hil : i ≠ 2 * i + 1 := by omega
          by_cases hji : j = i
          · rw [hji, swap_A_fst,
              swap_A_ne h i (2 * i + 1) (par i) (by have := par_lt i (by omega); omega)
                (by have := par_le i; omega)]
            rw [hji] at hj0 hkj
            exact hb hj0 hkj (2 * i + 1) hln (child_left i)
          · by_cases hjl : j = 2 * i + 1
            · rw [hjl, child_left, swap_A_fst, swap_A_snd]
              omega
            · by_cases hpj : par j = i
              · exfalso
                rcases children_of j hj0 hpj with rfl | rfl <;> omega
              · by_cases hpjl : par j = 2 * i + 1
                · exfalso
                  rcases children_of j hj0 hpjl with rfl | rfl <;> omega
                · rw [swap_A_ne h i (2 * i + 1) j hji hjl,
                    swap_A_ne h i (2 * i + 1) (par j) hpj hpjl]
                  exact ha j hj hj0 hkj hpj
        · rw [if_neg c2]
          by_cases c3 : ((2 * i + 1 : Nat) : Int) < h.hSize ∧
              ((2 * i + 2 : Nat) : Int) < h.hSize
          · rw [if_pos c3]
            have hln : 2 * i + 1 < h.hSize.toNat := by omega
            have hrn : 2 * i + 2 < h.hSize.toNat := by omega
            by_cases c4 : (h.A (i : Nat)).priority ≤ (h.A (2 * i + 1 : Nat)).priority ∧
                (h.A (i : Nat)).priority ≤ (h.A (2 * i + 2 : Nat)).priority
            · rw [if_pos c4]
              by_cases hpj : par j = i
              · rcases children_of j hj0 hpj with rfl | rfl
                · rw [hpj]; exact c4.1
                · rw [hpj]; exact c4.2
              · exact ha j hj hj0 hkj hpj
            · rw [if_neg c4]
              by_cases c5 : (h.A (2 * i + 1 : Nat)).priority > (h.A (2 * i + 2 : Nat)).priority
              · rw [if_pos c5]
                apply ih (h.swap i (2 * i + 2)) (2 * i + 2) k
                  (by show h.hSize.toNat - (2 * i + 2) ≤ d; omega) (by omega) _ _ j
                  (by show j < h.hSize.toNat; exact hj) hj0 hkj
                · -- region hypothesis for the recursive call at the right child
                  intro j' h1 h2 h3 h4
                  have h1' : j' < h.hSize.toNat := h1
                  by_cases hj'i : j' = i
                  · rw [hj'i, swap_A_fst,
                      swap_A_ne h i (2 * i + 2) (par i)
                        (by have := par_lt i (by omega); omega) (by have := par_le i; omega)]
                    rw [hj'i] at h2 h3
                    exact hb h2 h3 (2 * i + 2) hrn (child_right i)
                  · by_cases hj'r : j' = 2 * i + 2
                    · rw [hj'r, child_right, swap_A_fst, swap_A_snd]
                      omega
                    · by_cases hj'l : j' = 2 * i + 1
                      · rw [hj'l, child_left, swap_A_fst,
                          swap_A_ne h i (2 * i + 2) (2 * i + 1) (by omega) (by omega)]
                        omega
                      · by_cases hpj' : par j' = i
                        · exfalso
                          rcases children_of j' h2 hpj' with rfl | rfl <;> omega
                        · rw [swap_A_ne h i (2 * i + 2) j' hj'i hj'r,
                            swap_A_ne h i (2 * i + 2) (par j') hpj' h4]
                          exact ha j' h1' h2 h3 hpj'
                · -- grandparent hypothesis for the recursive call
                  intro _ _ c hc hpc
                  have hc' : c < h.hSize.toNat := hc
                  have hc0 : 0 < c := by
                    rcases Nat.eq_zero_or_pos c with rfl | hcp
                    · exfalso; simp only [par] at hpc; omega
                    · exact hcp
                  have hcbig : 2 * (2 * i + 2) + 1 ≤ c := by
                    have := two_par_lt c hc0
                    omega
                  rw [child_right, swap_A_fst,
                    swap_A_ne h i (2 * i + 2) c (by omega) (by omega)]
                  have h5 := ha c hc' hc0 (by omega) (by omega)
                  rw [hpc] at h5
                  exact h5
              · rw [if_neg c5]
                apply ih (h.swap i (2 * i + 1)) (2 * i + 1) k
                  (by show h.hSize.toNat - (2 * i + 1) ≤ d; omega) (by omega) _ _ j
                  (by show j < h.hSize.toNat; exact hj) hj0 hkj
                · -- region hypothesis for the recursive call at the left child
                  intro j' h1 h2 h3 h4
                  have h1' : j' < h.hSize.toNat := h1
                  by_cases hj'i : j' = i
                  · rw [hj'i, swap_A_fst,
                      swap_A_ne h i (2 * i + 1) (par i)
                        (by have := par_lt i (by omega); omega) (by have := par_le i; omega)]
                    rw [hj'i] at h2 h3
                    exact hb h2 h3 (2 * i + 1) hln (child_left i)
                  · by_cases hj'l : j' = 2 * i + 1
                    · rw [hj'l, child_left, swap_A_fst, swap_A_snd]
                      omega
                    · by_cases hj'r : j' = 2 * i + 2
                      · rw [hj'r, child_right, swap_A_fst,
                          swap_A_ne h i (2 * i + 1) (2 * i + 2) (by omega) (by omega)]
                        omega
                      · by_cases hpj' : par j' = i
                        · exfalso
                          rcases children_of j' h2 hpj' with rfl | rfl <;> omega
                        · rw [swap_A_ne h i (2 * i + 1) j' hj'i hj'l,
                            swap_A_ne h i (2 * i + 1) (par j') hpj' h4]
                          exact ha j' h1' h2 h3 hpj'
                · -- grandparent hypothesis for the recursive call
                  intro _ _ c hc hpc
                  have hc' : c < h.hSize.toNat := hc
                  have hc0 : 0 < c := by
                    rcases Nat.eq_zero_or_pos c with rfl | hcp
                    · exfalso; simp only [par] at hpc; omega
                    · exact hcp
                  have hcbig : 2 * (2 * i + 1) + 1 ≤ c := by
                    have := two_par_lt c hc0
                    omega
                  rw [child_left, swap_A_fst,
                    swap_A_ne h i (2 * i + 1) c (by omega) (by omega)]
                  have h5 := ha c hc' hc0 (by omega) (by omega)
                  rw [hpc] at h5
                  exact h5
          · rw [if_neg c3]
            have hln : 2 * i + 1 < h.hSize.toNat := by omega
            have hrn : h.hSize.toNat ≤ 2 * i + 2 := by omega
            have hcmp : (h.A (i : Nat)).priority ≤ (h.A (2 * i + 1 : Nat)).priority := by omega
            by_cases hpj : par j = i
            · rcases children_of j hj0 hpj with rfl | rfl
              · rw [hpj]; exact hcmp
              · exfalso; omega
            · exact ha j hj hj0 hkj hpj

/-! ### The root of an ordered heap has minimum priority -/

theorem root_min (h : Heap) (hord : h.heapOrdered) :
    ∀ j, j < h.hSize.toNat → (h.A 0).priority ≤ (h.A (j : Nat)).priority := by
  intro j
  induction j using Nat.strong_induction_on with
  | _ j ih =>
    intro hj
    rcases Nat.eq_zero_or_pos j with rfl | hj0
    · simp
    · exact le_trans (ih (par j) (par_lt j hj0) (by have := par_lt j hj0; omega))
        (hord j hj hj0)

/-! ### `trickleUp` repairs the invariant after a leaf insertion -/

theorem trickleUp_ordered :
    ∀ (i : Nat) (h : Heap) (n : Nat), i < n →
    (∀ j, j < n → 0 < j → j ≠ i → (h.A (par j : Nat)).priority ≤ (h.A (j : Nat)).priority) →
    (0 < i → ∀ c, c < n → 0 < c → par c = i →
      (h.A (par i : Nat)).priority ≤ (h.A (c : Nat)).priority) →
    ∀ j, j < n → 0 < j →
      ((h.trickleUp i).A (par j : Nat)).priority ≤ ((h.trickleUp i).A (j : Nat)).priority := by
  intro i
  induction i using Nat.strong_induction_on with
  | _ i ih =>
    intro h n hin ha hb j hj hj0
    rcases Nat.eq_zero_or_pos i with rfl | hi0
    · rw [trickleUp_zero]
      exact ha j hj hj0 (by omega)
    · rw [trickleUp_succ h i hi0]
      by_cases hp : (h.A (i : Nat)).priority ≥ (h.A (par i : Nat)).priority
      · rw [if_pos hp]
        by_cases hji : j = i
        · subst hji; exact hp
        · exact ha j hj hj0 hji
      · rw [if_neg hp]
        have hpi := par_lt i hi0
        apply ih (par i) hpi (h.swap i (par i)) n (by omega) _ _ j hj hj0
        · -- the swapped array is ordered away from `par i`
          intro j' h1 h2 h3
          by_cases hj'i : j' = i
          · subst hj'i
            rw [swap_A_snd, swap_A_fst]
            omega
          · by_cases hpji : par j' = i
            · rw [swap_A_ne h i (par i) j' hj'i (by omega),
                show par j' = i from hpji, swap_A_fst]
              exact hb hi0 j' h1 h2 hpji
            · by_cases hpjp : par j' = par i
              · rw [swap_A_ne h i (par i) j' hj'i (by omega),
                  show par j' = par i from hpjp, swap_A_snd]
                have h4 := ha j' h1 h2 hj'i
                rw [hpjp] at h4
                omega
              · rw [swap_A_ne h i (par i) j' hj'i (by omega),
                  swap_A_ne h i (par i) (par j') hpji hpjp]
                exact ha j' h1 h2 hj'i
        · -- the grandparent is at most the new children of `par i`
          intro hp0 c h1 h2 h3
          have hppi : par (par i) ≠ i := by have := par_lt (par i) hp0; omega
          have hppp : par (par i) ≠ par i := by have := par_lt (par i) hp0; omega
          rw [swap_A_ne h i (par i) (par (par i)) hppi hppp]
          by_cases hci : c = i
          · rw [hci, swap_A_fst]
            exact ha (par i) (by omega) hp0 (by omega)
          · have hcp : c ≠ par i := by have := par_lt c h2; omega
            rw [swap_A_ne h i (par i) c hci hcp]
            have h4 := ha c h1 h2 hci
            rw [h3] at h4
            exact le_trans (ha (par i) (by omega) hp0 (by omega)) h4

theorem root_min_contents (h : Heap) (hord : h.heapOrdered) :
    ∀ q ∈ h.contents, (h.A 0).priority ≤ q.priority := by
  intro q hq
  unfold contents contentsN at hq
  rw [Multiset.mem_coe] at hq
  obtain ⟨a, ha, rfl⟩ := List.mem_map.mp hq
  exact root_min h hord a (List.mem_range.mp ha)

/-! ### The operations preserve (or establish) the invariant -/

theorem heapifyAux_ordered : ∀ (m : Nat) (h : Heap),
    (∀ j, j < h.hSize.toNat → 0 < j → m ≤ par j →
      (h.A (par j : Nat)).priority ≤ (h.A (j : Nat)).priority) →
    ∀ j, j < h.hSize.toNat → 0 < j →
      ((h.heapifyAux m).A (par j : Nat)).priority ≤ ((h.heapifyAux m).A (j : Nat)).priority := by
  intro m
  induction m with
  | zero =>
    intro h hreg j hj hj0
    exact hreg j hj hj0 (Nat.zero_le _)
  | succ m ih =>
    intro h hreg j hj hj0
    simp only [heapifyAux]
    have hreg' : ∀ j', j' < (h.trickleDown m).hSize.toNat → 0 < j' → m ≤ par j' →
        (((h.trickleDown m).A (par j' : Nat)).priority ≤ ((h.trickleDown m).A (j' : Nat)).priority) := by
      intro j' h1 h2 h3
      rw [trickleDown_hSize] at h1
      apply trickleDown_ordered h.hSize.toNat h m m (by omega) le_rfl _ _ j' h1 h2 h3
      · intro j2 h4 h5 h6 h7
        exact hreg j2 h4 h5 (by omega)
      · intro hm0 hmp c hc hpc
        exfalso
        have := par_lt m hm0
        omega
    have := ih (h.trickleDown m) hreg' j (by rw [trickleDown_hSize]; exact hj) hj0
    exact this

theorem heapify_ordered (h : Heap) : h.heapify.heapOrdered := by
  unfold heapOrdered heapify
  intro j hj hj0
  rw [heapifyAux_hSize] at hj
  apply heapifyAux_ordered (h.hSize.toNat / 2) h _ j hj hj0
  intro j' h1 h2 h3
  exfalso
  have := two_par_lt j' h2
  omega

theorem insert_heapOrdered (h : Heap) (e p : Int) (h0 : 0 ≤ h.hSize)
    (hord : h.heapOrdered) : (h.insert e p).heapOrdered := by
  unfold heapOrdered
  intro j hj hj0
  rw [insert_hSize, show (h.hSize + 1).toNat = h.hSize.toNat + 1 from by omega] at hj
  rw [show (h.insert e p).A
      = (({h with A := Function.update h.A h.hSize ⟨e, p⟩} : Heap).trickleUp h.hSize.toNat).A
      from rfl]
  apply trickleUp_ordered h.hSize.toNat _ (h.hSize.toNat + 1) (Nat.lt_succ_self _) _ _ j hj hj0
  · intro j' h1 h2 h3
    have hj' : j' < h.hSize.toNat := by omega
    have hpj' : par j' < h.hSize.toNat := by have := par_le j'; omega
    have hA1 : ({h with A := Function.update h.A h.hSize ⟨e, p⟩} : Heap).A (j' : Nat)
        = h.A (j' : Nat) := by
      show Function.update h.A h.hSize ⟨e, p⟩ ((j' : Nat) : Int) = h.A ((j' : Nat) : Int)
      rw [Function.update_apply, if_neg (by omega)]
    have hA2 : ({h with A := Function.update h.A h.hSize ⟨e, p⟩} : Heap).A (par j' : Nat)
        = h.A (par j' : Nat) := by
      show Function.update h.A h.hSize ⟨e, p⟩ ((par j' : Nat) : Int) = h.A ((par j' : Nat) : Int)
      rw [Function.update_apply, if_neg (by omega)]
    rw [hA1, hA2]
    exact hord j' hj' h2
  · intro hn0 c hc hc0 hpc
    exfalso
    rcases children_of' c hn0 hpc with rfl | rfl <;> omega

theorem extract_heapOrdered (h : Heap) (hpos : 0 < h.hSize)
    (hord : h.heapOrdered) : (h.extractMin).2.heapOrdered := by
  unfold heapOrdered
  intro j hj hj0
  rw [extract_hSize, show (h.hSize - 1).toNat = h.hSize.toNat - 1 from by omega] at hj
  rw [show (h.extractMin).2 = ({h with
      A := Function.update h.A 0 (h.A (h.hSize - 1)),
      hSize := h.hSize - 1} : Heap).trickleDown 0 from rfl]
  set h1 : Heap := {h with
      A := Function.update h.A 0 (h.A (h.hSize - 1)),
      hSize := h.hSize - 1} with hh1
  have h1szt : h1.hSize.toNat = h.hSize.toNat - 1 := by
    show (h.hSize - 1).toNat = h.hSize.toNat - 1
    omega
  apply trickleDown_ordered h1.hSize.toNat h1 0 0 (by omega) le_rfl _ _ j
    (by rw [h1szt]; exact hj) hj0 (Nat.zero_le _)
  · intro j' hj'1 hj'2 _ hpj'
    rw [h1szt] at hj'1
    have hA1 : h1.A (j' : Nat) = h.A (j' : Nat) := by
      show Function.update h.A 0 (h.A (h.hSize - 1)) ((j' : Nat) : Int) = h.A ((j' : Nat) : Int)
      rw [Function.update_apply, if_neg (by omega)]
    have hA2 : h1.A (par j' : Nat) = h.A (par j' : Nat) := by
      have hpj0 : 0 < par j' := by omega
      show Function.update h.A 0 (h.A (h.hSize - 1)) ((par j' : Nat) : Int)
        = h.A ((par j' : Nat) : Int)
      rw [Function.update_apply, if_neg (by omega)]
    rw [hA1, hA2]
    exact hord j' (by omega) hj'2
  · intro hcon
    exact absurd hcon (by omega)

/-! ### Repeated extraction: sorted output, same contents -/

theorem extractSeq_spec : ∀ (n : Nat) (h : Heap), h.hSize = (n : Int) → h.heapOrdered →
    ((h.extractSeq n : List Pair) : Multiset Pair) = h.contents
    ∧ List.Pairwise (fun a b : Pair => a.priority ≤ b.priority) (h.extractSeq n) := by
  intro n
  induction n with
  | zero =>
    intro h hsz _
    constructor
    · show ((([] : List Pair)) : Multiset Pair) = h.contents
      unfold contents
      rw [show h.hSize.toNat = 0 from by omega]
      rfl
    · show List.Pairwise _ ([] : List Pair)
      exact List.Pairwise.nil
  | succ n ih =>
    intro h hsz hord
    have hpos : 0 < h.hSize := by omega
    have hexthsz : (h.extractMin).2.hSize = (n : Int) := by
      rw [extract_hSize]; omega
    have hextord := extract_heapOrdered h hpos hord
    obtain ⟨ihm, ihs⟩ := ih (h.extractMin).2 hexthsz hextord
    constructor
    · show ((h.A 0 :: (h.extractMin).2.extractSeq n : List Pair) : Multiset Pair) = h.contents
      rw [← Multiset.cons_coe, ihm]
      exact (extract_contents h hpos).symm
    · show List.Pairwise _ (h.A 0 :: (h.extractMin).2.extractSeq n)
      apply List.Pairwise.cons
      · intro b hb
        have hbmem : b ∈ (h.extractMin).2.contents := by
          rw [← ihm]
          exact Multiset.mem_coe.mpr hb
        have hbh : b ∈ h.contents := by
          rw [extract_contents h hpos]
          exact Multiset.mem_cons_of_mem hbmem
        exact root_min_contents h hord b hbh
      · exact ihs

theorem extractElems_eq : ∀ (n : Nat) (h : Heap),
    h.extractElems n = (h.extractSeq n).map Pair.element := by
  intro n
  induction n with
  | zero => intro h; rfl
  | succ n ih =>
    intro h
    show (h.extractMin).1 :: (h.extractMin).2.extractElems n
      = (h.A 0).element :: ((h.extractMin).2.extractSeq n).map Pair.element
    rw [extract_fst, ih]

/-! ### Repeated insertion from a list -/

theorem insertList_spec : ∀ (l : List Pair) (h : Heap), 0 ≤ h.hSize → h.heapOrdered →
    (h.insertList l).hSize = h.hSize + l.length
    ∧ (h.insertList l).hCapacity = h.hCapacity
    ∧ (h.insertList l).contents = h.contents + (l : Multiset Pair)
    ∧ (h.insertList l).heapOrdered := by
  intro l
  induction l with
  | nil =>
    intro h h0 hord
    exact ⟨by simp [insertList], rfl, by simp [insertList, contents], hord⟩
  | cons p l ih =>
    intro h h0 hord
    have hstep : h.insertList (p :: l) = (h.insert p.element p.priority).insertList l := rfl
    have h0' : 0 ≤ (h.insert p.element p.priority).hSize := by rw [insert_hSize]; omega
    have hord' := insert_heapOrdered h p.element p.priority h0 hord
    obtain ⟨ih1, ih2, ih3, ih4⟩ := ih (h.insert p.element p.priority) h0' hord'
    refine ⟨?_, ?_, ?_, ?_⟩
    · rw [hstep, ih1, insert_hSize]
      push_cast [List.length_cons]
      ring
    · rw [hstep, ih2, insert_hCapacity]
    · rw [hstep, ih3, insert_contents h p.element p.priority h0]
      rw [show (⟨p.element, p.priority⟩ : Pair) = p from rfl]
      rw [← Multiset.cons_coe, Multiset.cons_add, Multiset.add_cons]
    · rw [hstep]
      exact ih4

/-! ### The raw-array constructor is a fold of inserts -/

theorem mkFromArrays_eq (junk : Int → Pair) (junkSize : Int) (P E : Int → Int) (s c : Int) :
    Heap.mkFromArrays junk junkSize P E s c
      = ({ A := junk, hCapacity := s + c, hSize := junkSize } : Heap).insertList
          ((List.range s.toNat).map (fun i : Nat => (⟨E (i : Nat), P (i : Nat)⟩ : Pair))) := by
  show (List.range s.toNat).foldl (fun h i => h.insert (E (i : Nat)) (P (i : Nat)))
      ({ A := junk, hCapacity := s + c, hSize := junkSize } : Heap)
    = ((List.range s.toNat).map (fun i : Nat => (⟨E (i : Nat), P (i : Nat)⟩ : Pair))).foldl
        (fun h pr => h.insert pr.element pr.priority)
        ({ A := junk, hCapacity := s + c, hSize := junkSize } : Heap)
  conv_rhs => rw [List.foldl_map]

/-! ### The merge constructor: size, capacity, contents, invariant -/

theorem merge_hSize (junk : Int → Pair) (h1 h2 : Heap) (c : Int) :
    (Heap.merge junk h1 h2 c).hSize = h1.hSize + h2.hSize := by
  show (Heap.heapify _).hSize = _
  rw [heapify_hSize]

theorem merge_hCapacity (junk : Int → Pair) (h1 h2 : Heap) (c : Int) :
    (Heap.merge junk h1 h2 c).hCapacity = h1.hSize + h2.hSize + c := by
  show (Heap.heapify _).hCapacity = _
  rw [heapify_hCapacity]

theorem merge_ordered (junk : Int → Pair) (h1 h2 : Heap) (c : Int) :
    (Heap.merge junk h1 h2 c).heapOrdered :=
  heapify_ordered _

theorem merge_contents (junk : Int → Pair) (h1 h2 : Heap) (c : Int)
    (hs1 : 0 ≤ h1.hSize) (hs2 : 0 ≤ h2.hSize) :
    (Heap.merge junk h1 h2 c).contents = h1.contents + h2.contents := by
  set hM : Heap :=
    { A := fun k =>
        if 0 ≤ k ∧ k < h1.hSize then h1.A k
        else if h1.hSize ≤ k ∧ k < h1.hSize + h2.hSize then h2.A (k - h1.hSize)
        else junk k,
      hCapacity := h1.hSize + h2.hSize + c,
      hSize := h1.hSize + h2.hSize } with hhM
  have hmerge : Heap.merge junk h1 h2 c = Heap.heapify hM := rfl
  rw [hmerge]
  unfold contents
  rw [heapify_hSize, heapify_contentsN]
  have hMt : hM.hSize.toNat = h1.hSize.toNat + h2.hSize.toNat := by
    show (h1.hSize + h2.hSize).toNat = _
    omega
  rw [hMt]
  have key : ∀ j, j ≤ h2.hSize.toNat →
      hM.contentsN (h1.hSize.toNat + j) = h1.contentsN h1.hSize.toNat + h2.contentsN j := by
    intro j
    induction j with
    | zero =>
      intro _
      rw [Nat.add_zero]
      have hfirst : hM.contentsN h1.hSize.toNat = h1.contentsN h1.hSize.toNat := by
        unfold contentsN
        congr 1
        apply List.map_congr_left
        intro a ha
        have halt := List.mem_range.mp ha
        show (if 0 ≤ ((a : Nat) : Int) ∧ ((a : Nat) : Int) < h1.hSize then h1.A ((a : Nat) : Int)
          else if h1.hSize ≤ ((a : Nat) : Int) ∧ ((a : Nat) : Int) < h1.hSize + h2.hSize
            then h2.A (((a : Nat) : Int) - h1.hSize) else junk ((a : Nat) : Int))
          = h1.A ((a : Nat) : Int)
        rw [if_pos ⟨by omega, by omega⟩]
      rw [hfirst, show h2.contentsN 0 = 0 from rfl, add_zero]
    | succ j ihj =>
      intro hle
      rw [show h1.hSize.toNat + (j + 1) = (h1.hSize.toNat + j) + 1 from by omega]
      rw [contentsN_succ, ihj (by omega), contentsN_succ]
      have hA : hM.A (((h1.hSize.toNat + j : Nat)) : Int) = h2.A ((j : Nat) : Int) := by
        show (if 0 ≤ (((h1.hSize.toNat + j : Nat)) : Int)
            ∧ (((h1.hSize.toNat + j : Nat)) : Int) < h1.hSize
            then h1.A (((h1.hSize.toNat + j : Nat)) : Int)
          else if h1.hSize ≤ (((h1.hSize.toNat + j : Nat)) : Int)
            ∧ (((h1.hSize.toNat + j : Nat)) : Int) < h1.hSize + h2.hSize
            then h2.A ((((h1.hSize.toNat + j : Nat)) : Int) - h1.hSize)
          else junk (((h1.hSize.toNat + j : Nat)) : Int))
          = h2.A ((j : Nat) : Int)
        rw [if_neg (by omega), if_pos ⟨by omega, by omega⟩]
        congr 1
        omega
      rw [hA, add_assoc]
  exact key h2.hSize.toNat le_rfl

/-! ### Every reachable heap is well formed -/

theorem reachable_wf : ∀ h : Heap, Reachable h → 0 ≤ h.hSize ∧ h.heapOrdered := by
  intro h hr
  induction hr with
  | mkDef junk =>
    refine ⟨le_refl 0, ?_⟩
    intro j hj hj0
    exact absurd hj (by show ¬(j < (0 : Int).toNat); simp)
  | mkC junk c =>
    refine ⟨le_refl 0, ?_⟩
    intro j hj hj0
    exact absurd hj (by show ¬(j < (0 : Int).toNat); simp)
  | mkArr junk P E s c =>
    rw [mkFromArrays_eq]
    have hbase : ({ A := junk, hCapacity := s + c, hSize := 0 } : Heap).heapOrdered := by
      intro j hj hj0
      exact absurd hj (by show ¬(j < (0 : Int).toNat); simp)
    obtain ⟨h1, _, _, h4⟩ := insertList_spec
      ((List.range s.toNat).map (fun i : Nat => (⟨E (i : Nat), P (i : Nat)⟩ : Pair)))
      ({ A := junk, hCapacity := s + c, hSize := 0 } : Heap) (le_refl 0) hbase
    refine ⟨?_, h4⟩
    rw [show ({ A := junk, hCapacity := s + c, hSize := 0 } : Heap).hSize = 0 from rfl] at h1
    rw [h1]
    omega
  | mkMerge junk c h1 h2 hr1 hr2 ih1 ih2 =>
    refine ⟨?_, merge_ordered junk h1 h2 c⟩
    rw [merge_hSize]
    have := ih1.1
    have := ih2.1
    omega
  | insStep h e p hr hcap ih =>
    exact ⟨by rw [insert_hSize]; have := ih.1; omega,
      insert_heapOrdered h e p ih.1 ih.2⟩
  | extStep h hr hpos ih =>
    exact ⟨by rw [extract_hSize]; omega, extract_heapOrdered h hpos ih.2⟩

/-! ### The source sift-down equals the spec's case analysis -/

theorem trickleDownF_eq_specF : ∀ (g : Nat) (h : Heap) (i : Nat),
    h.trickleDownF i g = h.trickleDownSpecF i g := by
  intro g
  induction g with
  | zero => intro h i; rfl
  | succ g ih =>
    intro h i
    simp only [trickleDownF, trickleDownSpecF]
    split_ifs <;> first | rfl | (exact ih _ _) | (exfalso; omega)

/-! ### `insert` touches only the ancestor chain of the new slot -/

theorem par_iterate_zero : ∀ (t j : Nat), j ≤ t → par^[t] j = 0 := by
  intro t
  induction t with
  | zero =>
    intro j hj
    obtain rfl : j = 0 := by omega
    rfl
  | succ t ih =>
    intro j hj
    rw [Function.iterate_succ_apply]
    apply ih
    simp only [par]
    omega

theorem trickleUpF_frame : ∀ (g : Nat) (h : Heap) (i : Nat) (k : Int),
    (∀ t : Nat, ((par^[t] i : Nat) : Int) ≠ k) → (h.trickleUpF i g).A k = h.A k := by
  intro g
  induction g with
  | zero => intro h i k _; rfl
  | succ g ih =>
    intro h i k hk
    simp only [trickleUpF]
    split_ifs with h0 hp
    · rfl
    · rfl
    · rw [ih _ (par i) k (fun t => hk (t + 1))]
      exact swap_A_other h i (par i) k (fun hh => hk 0 hh.symm) (fun hh => hk 1 hh.symm)

theorem insert_frame_aux (h : Heap) (e p : Int) (h0 : 0 ≤ h.hSize) (k : Int)
    (hk : ∀ t : Nat, ((par^[t] h.hSize.toNat : Nat) : Int) ≠ k) :
    (h.insert e p).A k = h.A k := by
  rw [show (h.insert e p).A
      = (({h with A := Function.update h.A h.hSize ⟨e, p⟩} : Heap).trickleUp h.hSize.toNat).A
      from rfl]
  unfold trickleUp
  rw [trickleUpF_frame _ _ _ k hk]
  show Function.update h.A h.hSize ⟨e, p⟩ k = h.A k
  rw [Function.update_apply, if_neg ?hne]
  case hne =>
    intro hh
    exact hk 0 (by rw [Function.iterate_zero_apply]; omega)

end Heap

/-!
## The claims

Each claim theorem below settles one claim about `heap.h`; witnesses
instantiate the theorems at concrete inputs.
-/

/-- C1: inserting a multiset of n (element, priority) pairs into an initially
empty heap with sufficient capacity and then performing n extractMin calls
returns exactly that multiset of elements, with the associated priorities of
the extracted pairs in non-decreasing order. -/
theorem round_trip_extraction (l : List Pair) (junk : Int → Pair) (c : Int)
    (hcap : (l.length : Int) ≤ c) :
    ((((Heap.mkCap junk c).insertList l).extractElems l.length : List Int) : Multiset Int)
        = ((l.map Pair.element : List Int) : Multiset Int)
    ∧ List.Pairwise (fun a b : Pair => a.priority ≤ b.priority)
        (((Heap.mkCap junk c).insertList l).extractSeq l.length) := by
  have hbase_ord : (Heap.mkCap junk c).heapOrdered := by
    intro j hj hj0
    exact absurd hj (by show ¬(j < (0 : Int).toNat); simp)
  obtain ⟨h1, h2, h3, h4⟩ := Heap.insertList_spec l (Heap.mkCap junk c) (le_refl 0) hbase_ord
  rw [show (Heap.mkCap junk c).hSize = 0 from rfl] at h1
  have hsz : ((Heap.mkCap junk c).insertList l).hSize = (l.length : Int) := by
    rw [h1]; ring
  obtain ⟨hm, hs⟩ := Heap.extractSeq_spec l.length _ hsz h4
  refine ⟨?_, hs⟩
  rw [Heap.extractElems_eq]
  have hml : ((((Heap.mkCap junk c).insertList l).extractSeq l.length : List Pair) :
      Multiset Pair) = (l : Multiset Pair) := by
    rw [hm, h3, show (Heap.mkCap junk c).contents = 0 from rfl, zero_add]
  have := congrArg (Multiset.map Pair.element) hml
  exact this

/-- C1 witness: the spec's concrete scenario (priorities 5,3,8,1; elements
10,20,30,40) extracts 40,20,10,30. -/
theorem round_trip_extraction_witness :
    ((([⟨10, 5⟩, ⟨20, 3⟩, ⟨30, 8⟩, ⟨40, 1⟩] : List Pair).length : Int) ≤ 10
    ∧ ((((Heap.mkCap junkZero 10).insertList
          [⟨10, 5⟩, ⟨20, 3⟩, ⟨30, 8⟩, ⟨40, 1⟩]).extractElems
            ([⟨10, 5⟩, ⟨20, 3⟩, ⟨30, 8⟩, ⟨40, 1⟩] : List Pair).length : List Int) : Multiset Int)
        = (([⟨10, 5⟩, ⟨20, 3⟩, ⟨30, 8⟩, ⟨40, 1⟩].map Pair.element : List Int) : Multiset Int)
    ∧ List.Pairwise (fun a b : Pair => a.priority ≤ b.priority)
        (((Heap.mkCap junkZero 10).insertList
          [⟨10, 5⟩, ⟨20, 3⟩, ⟨30, 8⟩, ⟨40, 1⟩]).extractSeq
            ([⟨10, 5⟩, ⟨20, 3⟩, ⟨30, 8⟩, ⟨40, 1⟩] : List Pair).length)) :=
  ⟨by decide,
    (round_trip_extraction [⟨10, 5⟩, ⟨20, 3⟩, ⟨30, 8⟩, ⟨40, 1⟩] junkZero 10 (by decide)).1,
    (round_trip_extraction [⟨10, 5⟩, ⟨20, 3⟩, ⟨30, 8⟩, ⟨40, 1⟩] junkZero 10 (by decide)).2⟩

/-- C2 counterexample: a heap produced by the raw-array constructor (with the
uninitialized `hSize` holding 2 and the fresh allocation holding priorities
5, 1 in its first two slots) violates the heap-order invariant at index 1:
`priority(A[1]) < priority(A[(1-1)/2])`. -/
theorem heap_invariant_constructor_cx :
    (Heap.mkFromArrays junkBad 2 P5 E5 0 2).hSize = 2
    ∧ ((Heap.mkFromArrays junkBad 2 P5 E5 0 2).A ((((1 : Nat) - 1) / 2 : Nat) : Int)).priority
        > ((Heap.mkFromArrays junkBad 2 P5 E5 0 2).A ((1 : Nat) : Int)).priority := by
  decide

/-- C2 (amended): the heap-order invariant `priority(A[i]) ≥
priority(A[(i-1)/2])` for `1 ≤ i < size` holds after any sequence of valid
operations starting from the default, explicit-capacity, or merge
constructor, or from the raw-array constructor when the uninitialized
`hSize` field happens to hold 0. -/
theorem heap_invariant_reachable (h : Heap) (hr : Reachable h) :
    ∀ i : Nat, 1 ≤ i → (i : Int) < h.hSize →
      (h.A (((i - 1) / 2 : Nat) : Int)).priority ≤ (h.A ((i : Nat) : Int)).priority := by
  intro i hi1 hilt
  obtain ⟨h0, hord⟩ := Heap.reachable_wf h hr
  exact hord i (by omega) (by omega)

/-- C2 witness: a two-element heap built by valid inserts satisfies the
invariant at index 1. -/
theorem heap_invariant_reachable_witness :
    Reachable hTwo ∧ (1 : Int) < hTwo.hSize
    ∧ (hTwo.A ((((1 : Nat) - 1) / 2 : Nat) : Int)).priority
        ≤ (hTwo.A (((1 : Nat) : Nat) : Int)).priority := by
  have r1 : Reachable (Heap.mkCap junkZero 3) := Reachable.mkC junkZero 3
  have r2 : Reachable ((Heap.mkCap junkZero 3).insert 5 2) :=
    Reachable.insStep _ 5 2 r1 (by decide)
  have r3 : Reachable hTwo := Reachable.insStep _ 6 1 r2 (by decide)
  exact ⟨r3, by decide, heap_invariant_reachable hTwo r3 1 (by decide) (by decide)⟩

/-- C3 counterexample: on a freshly constructed empty heap, `peekMin` and
`extractMin` do not fail with any error: both return a value (whatever the
uninitialized slot 0 holds) and `extractMin` changes state, decrementing
`hSize` to -1. -/
theorem empty_peek_extract_cx :
    (Heap.mkDefault junkZero).hSize = 0
    ∧ (Heap.mkDefault junkZero).peekMin = 0
    ∧ ((Heap.mkDefault junkZero).extractMin).1 = 0
    ∧ ((Heap.mkDefault junkZero).extractMin).2.hSize = -1 := by
  decide

/-- C3 (amended): `peekMin` and `extractMin` perform no emptiness check and
no `EmptyContainer` error exists: on a heap of size 0 both return the
element stored in backing slot 0, and `extractMin` additionally decrements
the size to -1. -/
theorem empty_peek_extract_behavior (h : Heap) (h0 : h.hSize = 0) :
    h.peekMin = (h.A 0).element
    ∧ (h.extractMin).1 = (h.A 0).element
    ∧ (h.extractMin).2.hSize = -1 := by
  refine ⟨rfl, rfl, ?_⟩
  rw [Heap.extract_hSize, h0]
  omega

/-- C3 witness: the amended behavior at a concrete empty heap. -/
theorem empty_peek_extract_behavior_witness :
    (Heap.mkCap junkZero 4).hSize = 0
    ∧ ((Heap.mkCap junkZero 4).peekMin = ((Heap.mkCap junkZero 4).A 0).element
      ∧ ((Heap.mkCap junkZero 4).extractMin).1 = ((Heap.mkCap junkZero 4).A 0).element
      ∧ ((Heap.mkCap junkZero 4).extractMin).2.hSize = -1) :=
  ⟨by decide, empty_peek_extract_behavior _ (by decide)⟩

/-- C4 counterexample: inserting into a heap at full capacity neither fails
nor grows the storage: the size becomes capacity + 1 while the capacity is
unchanged, and the displaced entry is stored at index 1 = capacity, outside
the 1-slot allocation. -/
theorem full_insert_cx :
    hFull.hSize = hFull.hCapacity
    ∧ (hFull.insert 8 2).hSize = 2
    ∧ (hFull.insert 8 2).hCapacity = 1
    ∧ (hFull.insert 8 2).A 1 = ⟨7, 3⟩ := by
  decide

/-- C4 (amended): `insert` performs no capacity check: at `size == capacity`
it still stores the entry (the multiset of stored pairs grows by the new
pair, with the slots `[0, size+1)` now extending past the allocation),
increments the size past the unchanged capacity, and reports no
`CapacityExceeded` error. -/
theorem full_insert_behavior (h : Heap) (e p : Int) (h0 : 0 ≤ h.hSize)
    (hfull : h.hSize = h.hCapacity) :
    (h.insert e p).hCapacity = h.hCapacity
    ∧ (h.insert e p).hSize = h.hCapacity + 1
    ∧ (h.insert e p).contents = (⟨e, p⟩ : Pair) ::ₘ h.contents :=
  ⟨Heap.insert_hCapacity h e p, by rw [Heap.insert_hSize, hfull],
    Heap.insert_contents h e p h0⟩

/-- C4 witness: the amended behavior at a concrete full heap. -/
theorem full_insert_behavior_witness :
    (0 ≤ hFull.hSize ∧ hFull.hSize = hFull.hCapacity)
    ∧ ((hFull.insert 9 4).hCapacity = hFull.hCapacity
      ∧ (hFull.insert 9 4).hSize = hFull.hCapacity + 1
      ∧ (hFull.insert 9 4).contents = (⟨9, 4⟩ : Pair) ::ₘ hFull.contents) :=
  ⟨⟨by decide, by decide⟩, full_insert_behavior hFull 9 4 (by decide) (by decide)⟩

/-- C5: the raw-array constructor never initializes `hSize`, so the heap it
produces depends on the uninitialized memory behind that field.  If the
indeterminate value is 1, constructing from the spec's four pairs yields
size 5, not 4; with the evidently intended value 0 the constructor behaves
as documented (size 4, extraction order d, b, a, c = 40, 20, 10, 30). -/
theorem fromArrays_uninitialized_size :
    (Heap.mkFromArrays junkZero 1 P5 E5 4 0).hSize = 5
    ∧ (Heap.mkFromArrays junkZero 0 P5 E5 4 0).hSize = 4
    ∧ (Heap.mkFromArrays junkZero 0 P5 E5 4 0).extractElems 4 = [40, 20, 10, 30] := by
  decide

/-- C6 counterexample: construction with invalid arguments does not fail:
`Heap(-1)` yields a heap object with capacity -1 and size 0, and the
raw-array constructor with count -1 and spare capacity 5 completes,
performing no inserts. -/
theorem constructor_no_validation_cx :
    (Heap.mkCap junkZero (-1)).hCapacity = -1
    ∧ (Heap.mkCap junkZero (-1)).hSize = 0
    ∧ (Heap.mkFromArrays junkZero 0 P5 E5 (-1) 5).hSize = 0
    ∧ (Heap.mkFromArrays junkZero 0 P5 E5 (-1) 5).hCapacity = 4 := by
  decide

/-- C6 (amended): the constructors perform no argument validation and no
`InvalidArgument` error exists: `Heap(c)` produces an empty heap with
capacity `c` for every `c`, negative included, and the raw-array
constructor with count ≤ 0 performs no inserts, leaving the size equal to
the uninitialized field's value and the capacity `count + spare` (input
sequences shorter than the count are simply read out of bounds). -/
theorem constructor_no_validation (junk : Int → Pair) (junkSize : Int)
    (P E : Int → Int) (s c c' : Int) (hs : s ≤ 0) :
    ((Heap.mkCap junk c').hSize = 0 ∧ (Heap.mkCap junk c').hCapacity = c')
    ∧ (Heap.mkFromArrays junk junkSize P E s c).hSize = junkSize
    ∧ (Heap.mkFromArrays junk junkSize P E s c).hCapacity = s + c := by
  refine ⟨⟨rfl, rfl⟩, ?_⟩
  have h1 : Heap.mkFromArrays junk junkSize P E s c
      = ({ A := junk, hCapacity := s + c, hSize := junkSize } : Heap) := by
    rw [Heap.mkFromArrays_eq, show s.toNat = 0 from by omega]
    rfl
  rw [h1]
  exact ⟨rfl, rfl⟩

/-- C6 witness: the amended behavior at concrete invalid arguments. -/
theorem constructor_no_validation_witness :
    ((-1 : Int) ≤ 0
    ∧ (((Heap.mkCap junkZero (-7)).hSize = 0 ∧ (Heap.mkCap junkZero (-7)).hCapacity = -7)
      ∧ (Heap.mkFromArrays junkZero 3 P5 E5 (-1) 6).hSize = 3
      ∧ (Heap.mkFromArrays junkZero 3 P5 E5 (-1) 6).hCapacity = -1 + 6)) :=
  ⟨by decide, constructor_no_validation junkZero 3 P5 E5 (-1) 6 (-7) (by decide)⟩

/-- C7: for every pair of heaps and spare ≥ 0, the merge constructor
produces a heap whose entry multiset is the union of the inputs, whose size
is the sum of the input sizes, whose capacity is that sum plus the spare,
and which satisfies the heap-order invariant. -/
theorem merge_correct (h1 h2 : Heap) (junk : Int → Pair) (c : Int)
    (hs1 : 0 ≤ h1.hSize) (hs2 : 0 ≤ h2.hSize) (hc : 0 ≤ c) :
    (Heap.merge junk h1 h2 c).hSize = h1.hSize + h2.hSize
    ∧ (Heap.merge junk h1 h2 c).hCapacity = h1.hSize + h2.hSize + c
    ∧ (Heap.merge junk h1 h2 c).contents = h1.contents + h2.contents
    ∧ (Heap.merge junk h1 h2 c).heapOrdered :=
  ⟨Heap.merge_hSize junk h1 h2 c, Heap.merge_hCapacity junk h1 h2 c,
    Heap.merge_contents junk h1 h2 c hs1 hs2, Heap.merge_ordered junk h1 h2 c⟩

/-- C7 witness: merging a two-element and a one-element heap. -/
theorem merge_correct_witness :
    (0 ≤ hTwo.hSize ∧ 0 ≤ hFull.hSize ∧ (0 : Int) ≤ 1)
    ∧ ((Heap.merge junkZero hTwo hFull 1).hSize = hTwo.hSize + hFull.hSize
      ∧ (Heap.merge junkZero hTwo hFull 1).hCapacity = hTwo.hSize + hFull.hSize + 1
      ∧ (Heap.merge junkZero hTwo hFull 1).contents = hTwo.contents + hFull.contents
      ∧ (Heap.merge junkZero hTwo hFull 1).heapOrdered) :=
  ⟨⟨by decide, by decide, by decide⟩,
    merge_correct hTwo hFull junkZero 1 (by decide) (by decide) (by decide)⟩

/-- C8: the source's sift-down follows exactly the spec's case analysis: stop
when no child index is below size; with only a left child, swap exactly when
its priority is strictly smaller and stop; with two children, stop when the
node is at most both, else swap with the strictly smaller child (left wins
ties) and recurse into it. -/
theorem trickleDown_matches_spec (h : Heap) (i : Nat) :
    h.trickleDown i = h.trickleDownSpec i :=
  Heap.trickleDownF_eq_specF h.hSize.toNat h i

/-- C9: the repair recursions terminate unconditionally within explicit
bounds: `trickleUp` at index `i` needs at most `i` steps (the index
strictly decreases toward 0), and `trickleDown` at index `i` needs at most
`size - i` steps (the index strictly increases, bounded by `hSize`); any
fuel beyond these bounds leaves the result unchanged.  (`heapify` performs
exactly `size/2` sift-downs and `insert`/`extractMin` each perform one
repair pass, so every operation terminates.) -/
theorem operations_terminate :
    (∀ (h : Heap) (i g : Nat), i ≤ g → h.trickleUpF i g = h.trickleUp i)
    ∧ (∀ (h : Heap) (i g : Nat), h.hSize.toNat - i ≤ g → h.trickleDownF i g = h.trickleDown i) :=
  ⟨fun h i g hg => Heap.trickleUpF_congr g h i i hg le_rfl,
    fun h i g hg => Heap.trickleDownF_congr g h i h.hSize.toNat hg (Nat.sub_le _ _)⟩

/-- C9 witness: the fuel bounds at a concrete heap. -/
theorem operations_terminate_witness :
    ((2 : Nat) ≤ 9 ∧ hTwo.hSize.toNat - 0 ≤ 9)
    ∧ (hTwo.trickleUpF 2 9 = hTwo.trickleUp 2 ∧ hTwo.trickleDownF 0 9 = hTwo.trickleDown 0) :=
  ⟨⟨by decide, by decide⟩,
    ⟨operations_terminate.1 hTwo 2 9 (by decide), operations_terminate.2 hTwo 0 9 (by decide)⟩⟩

/-- C10: on a heap with size < capacity, `insert` changes only the ancestor
chain of the insertion slot: every array index that is not of the form
`parent^[t](size)` (i.e. neither the old size nor one of its ancestors
under `parent(i) = (i-1)/2`) holds the same entry afterwards, and the
capacity is unchanged. -/
theorem insert_frame (h : Heap) (e p : Int) (h0 : 0 ≤ h.hSize)
    (hcap : h.hSize < h.hCapacity) :
    (h.insert e p).hCapacity = h.hCapacity
    ∧ ∀ k : Int, (∀ t : Nat, t ≤ h.hSize.toNat → ((par^[t] h.hSize.toNat : Nat) : Int) ≠ k) →
      (h.insert e p).A k = h.A k := by
  refine ⟨Heap.insert_hCapacity h e p, ?_⟩
  intro k hk
  apply Heap.insert_frame_aux h e p h0 k
  intro t
  by_cases ht : t ≤ h.hSize.toNat
  · exact hk t ht
  · rw [show par^[t] h.hSize.toNat = 0 from Heap.par_iterate_zero t _ (by omega)]
    have := hk h.hSize.toNat le_rfl
    rw [show par^[h.hSize.toNat] h.hSize.toNat = 0
      from Heap.par_iterate_zero _ _ le_rfl] at this
    exact this

/-- C10 witness: inserting into a two-element heap leaves slot 1 (not on the
ancestor chain {2, 0} of the insertion slot 2) unchanged. -/
theorem insert_frame_witness :
    (0 ≤ hTwo.hSize ∧ hTwo.hSize < hTwo.hCapacity
      ∧ (∀ t : Nat, t ≤ hTwo.hSize.toNat → ((par^[t] hTwo.hSize.toNat : Nat) : Int) ≠ 1))
    ∧ ((hTwo.insert 9 9).hCapacity = hTwo.hCapacity ∧ (hTwo.insert 9 9).A 1 = hTwo.A 1) :=
  ⟨⟨by decide, by decide, by decide⟩,
    ⟨(insert_frame hTwo 9 9 (by decide) (by decide)).1,
      (insert_frame hTwo 9 9 (by decide) (by decide)).2 1 (by decide)⟩⟩
